import Mathlib

/-!
Shallow embedding of the dataset-preparation and batching pipeline of the
libs-pewpew repository (`src/utils.py`), together with theorems checking the
natural-language specification against it.

Conventions of the embedding:
* label IDs are non-negative integers (`Nat`), as the spec's data model states;
* spectral intensities and weights are rationals (`ℚ`): every operation the
  claims touch uses only field arithmetic and order comparisons, which `ℚ`
  models faithfully;
* a Python `dict` is an association list, `d[x]` is `dictLookup` (`none`
  models `KeyError`); a numpy 1-d array is a `List`, `a[x]` is `List.get?`
  (`none` models `IndexError`);
* `np.load` and the actual file contents are irrelevant to the claims, which
  are about which files are consumed in which batch; batches are therefore
  modelled as the lists of consumed files.
-/

set_option linter.unusedVariables false

/-! ### Label extraction and remapping (utils.py 98-123) -/

/-- Ascending list of the distinct elements of `labels`: models
`np.unique(labels)` as used in `get_transformation_dict` (utils.py:106). -/
def npUnique (labels : List Nat) : List Nat :=
  (List.insertionSort (· ≤ ·) labels).dedup

/-- Association list `[(u 0, i0), (u 1, i0+1), ...]`: models the Python
`enumerate` inside the dict comprehension of `get_transformation_dict`. -/
def buildEnum (i : Nat) : List Nat → List (Nat × Nat)
  | [] => []
  | u :: us => (u, i) :: buildEnum (i + 1) us

/-- Dict lookup `d[x]`; `none` models `KeyError`. -/
def dictLookup (x : Nat) : List (Nat × Nat) → Option Nat
  | [] => none
  | (k, v) :: es => if x = k then some v else dictLookup x es

/-- Dict form of the transformation mapping (utils.py:106):
`{unique_label : i for i, unique_label in enumerate(np.unique(labels))}`. -/
def get_transformation_dict (labels : List Nat) : List (Nat × Nat) :=
  buildEnum 0 (npUnique labels)

/-- Maximum of a list of naturals, `0` on the empty list: models
`np.max(np.unique(labels))` (utils.py:108; numpy raises on an empty array,
the claims only use non-empty label lists). -/
def npMaxNat (l : List Nat) : Nat := l.foldr max 0

/-- Array form of the transformation mapping (utils.py:108):
`np.array([trans_dict[i] if i in trans_dict.keys() else 0
           for i in range(np.max(np.unique(labels))+1)])`. -/
def get_transformation_np (labels : List Nat) : List Nat :=
  (List.range (npMaxNat (npUnique labels) + 1)).map
    (fun i => (dictLookup i (get_transformation_dict labels)).getD 0)

/-- `transform_labels` (utils.py:112-123) on a scalar, with the mapping in
dict form: `trans_dict[label]`; `none` models the `KeyError`. -/
def transform_label_dict (labels : List Nat) (x : Nat) : Option Nat :=
  dictLookup x (get_transformation_dict labels)

/-- `transform_labels` (utils.py:112-123) on a scalar, with the mapping in
array form: `trans_dict[label]` on an ndarray; `none` models the
`IndexError` on an out-of-range index. -/
def transform_label_np (labels : List Nat) (x : Nat) : Option Nat :=
  (get_transformation_np labels).get? x

/-- Position of the first occurrence of `x`, as an `Option`. -/
def lookupRank (x : Nat) : List Nat → Option Nat
  | [] => none
  | u :: us => if x = u then some 0 else (lookupRank x us).map (· + 1)

theorem dictLookup_buildEnum (u : List Nat) (i x : Nat) :
    dictLookup x (buildEnum i u) = (lookupRank x u).map (· + i) := by
  induction u generalizing i with
  | nil => simp [buildEnum, dictLookup, lookupRank]
  | cons a us ih =>
    by_cases h : x = a
    · simp [buildEnum, dictLookup, lookupRank, h]
    · simp only [buildEnum, dictLookup, lookupRank, if_neg h, ih]
      cases lookupRank x us <;> simp
      omega

theorem lookupRank_of_not_mem {x : Nat} {u : List Nat} (h : x ∉ u) :
    lookupRank x u = none := by
  induction u with
  | nil => rfl
  | cons a us ih =>
    simp only [List.mem_cons, not_or] at h
    simp [lookupRank, h.1, ih h.2]

theorem lookupRank_get {u : List Nat} (hu : u.Nodup) (k : Nat)
    (hk : k < u.length) : lookupRank (u.get ⟨k, hk⟩) u = some k := by
  induction u generalizing k with
  | nil => simp at hk
  | cons a us ih =>
    cases k with
    | zero => simp [lookupRank]
    | succ k =>
      have hmem : us.get ⟨k, by simpa using hk⟩ ∈ us := List.get_mem _ _ _
      have hne : us.get ⟨k, by simpa using hk⟩ ≠ a := by
        intro he
        exact (List.nodup_cons.mp hu).1 (he ▸ hmem)
      simp only [List.get_cons_succ, lookupRank, if_neg hne,
        ih (List.nodup_cons.mp hu).2 k (by simpa using hk)]
      rfl

theorem lookupRank_mem {x : Nat} {u : List Nat} (h : x ∈ u) :
    ∃ k, ∃ hk : k < u.length, lookupRank x u = some k ∧ u.get ⟨k, hk⟩ = x := by
  induction u with
  | nil => simp at h
  | cons a us ih =>
    by_cases hxa : x = a
    · exact ⟨0, by simp, by simp [lookupRank, hxa], hxa.symm⟩
    · obtain ⟨k, hk, h1, h2⟩ := ih (by simpa [hxa] using h)
      exact ⟨k + 1, by simpa using Nat.succ_lt_succ hk,
        by simp [lookupRank, hxa, h1], by simpa using h2⟩

theorem npUnique_sorted_le (labels : List Nat) :
    (npUnique labels).Sorted (· ≤ ·) :=
  (List.sorted_insertionSort _ labels).sublist (List.dedup_sublist _)

theorem npUnique_nodup (labels : List Nat) : (npUnique labels).Nodup :=
  List.nodup_dedup _

theorem npUnique_sorted_lt (labels : List Nat) :
    (npUnique labels).Sorted (· < ·) :=
  (npUnique_sorted_le labels).lt_of_le (npUnique_nodup labels)

theorem mem_npUnique {x : Nat} {labels : List Nat} :
    x ∈ npUnique labels ↔ x ∈ labels := by
  unfold npUnique
  rw [List.mem_dedup]
  exact (List.perm_insertionSort _ labels).mem_iff

/-- C4: the dict-form transformation mapping enumerates the unique label IDs
sorted ascending and assigns contiguous indices `0..N-1` in that order, and
an inverse lookup (index `k` back to the `k`-th smallest ID) recovers every
original label ID. -/
theorem spec_c4_transformation_dict_sorted_contiguous (labels : List Nat) :
    List.Sorted (· < ·) (npUnique labels) ∧
    (∀ k, ∀ hk : k < (npUnique labels).length,
      transform_label_dict labels ((npUnique labels).get ⟨k, hk⟩) = some k) ∧
    (∀ x ∈ labels, ∃ k, ∃ hk : k < (npUnique labels).length,
      transform_label_dict labels x = some k ∧
        (npUnique labels).get ⟨k, hk⟩ = x) := by
  refine ⟨npUnique_sorted_lt labels, fun k hk => ?_, fun x hx => ?_⟩
  · rw [transform_label_dict, get_transformation_dict, dictLookup_buildEnum,
      lookupRank_get (npUnique_nodup labels) k hk]
    rfl
  · obtain ⟨k, hk, h1, h2⟩ := lookupRank_mem (mem_npUnique.mpr hx)
    refine ⟨k, hk, ?_, h2⟩
    rw [transform_label_dict, get_transformation_dict, dictLookup_buildEnum, h1]
    rfl

/-- Witness for C4 at the spec's own example `[11, 28, 73, 98]`. -/
theorem spec_c4_transformation_dict_sorted_contiguous_witness :
    transform_label_dict [11, 28, 73, 98] 73 = some 2 := by
  obtain ⟨-, -, h⟩ := spec_c4_transformation_dict_sorted_contiguous [11, 28, 73, 98]
  obtain ⟨k, hk, h1, h2⟩ := h 73 (by decide)
  have hu : npUnique [11, 28, 73, 98] = [11, 28, 73, 98] := by decide
  have : k = 2 := by
    revert h2 hk
    rw [hu]
    revert k
    decide
  rw [← this, h1]

theorem length_get_transformation_np (labels : List Nat) :
    (get_transformation_np labels).length = npMaxNat (npUnique labels) + 1 := by
  simp [get_transformation_np]

/-- C5 counterexample: `99` is absent from the mapping built from
`[11, 28, 73, 98]`, yet the array form does not resolve it to index `0`:
the array has length `99` and indexing it at `99` is an `IndexError`. -/
theorem spec_c5_array_form_counterexample :
    transform_label_dict [11, 28, 73, 98] 99 = none ∧
    transform_label_np [11, 28, 73, 98] 99 ≠ some 0 := by decide

/-- C5 (amended): an ID absent from the mapping's domain fails with a lookup
error in dict form; in array form it silently resolves to index `0` when the
ID is at most the largest mapped ID, and fails with an index error (the array
has length `max(ID)+1`) when it is larger. -/
theorem spec_c5_unmapped_label_lookup (labels : List Nat) (x : Nat)
    (hx : x ∉ labels) :
    transform_label_dict labels x = none ∧
    (x ≤ npMaxNat (npUnique labels) → transform_label_np labels x = some 0) ∧
    (npMaxNat (npUnique labels) < x → transform_label_np labels x = none) := by
  have hdict : transform_label_dict labels x = none := by
    rw [transform_label_dict, get_transformation_dict, dictLookup_buildEnum,
      lookupRank_of_not_mem (fun h => hx (mem_npUnique.mp h))]
    rfl
  refine ⟨hdict, fun hle => ?_, fun hgt => ?_⟩
  · have hlt : x < npMaxNat (npUnique labels) + 1 := Nat.lt_succ_of_le hle
    rw [transform_label_np, get_transformation_np]
    rw [List.get?_eq_getElem?]
    rw [List.getElem?_map]
    rw [List.getElem?_range hlt]
    simp [show dictLookup x (get_transformation_dict labels) = none from hdict]
  · rw [transform_label_np, List.get?_eq_getElem?]
    apply List.getElem?_eq_none
    rw [length_get_transformation_np]
    omega

/-- Witness for C5 (amended): `42` is unmapped and within range, so the array
form resolves it to `0` while the dict form fails. -/
theorem spec_c5_unmapped_label_lookup_witness :
    transform_label_dict [11, 28, 73, 98] 42 = none ∧
    transform_label_np [11, 28, 73, 98] 42 = some 0 := by
  have h := spec_c5_unmapped_label_lookup [11, 28, 73, 98] 42 (by decide)
  exact ⟨h.1, h.2.1 (by decide)⟩

/-! ### Class weights (utils.py 410 and 428) -/

/-- Balanced class weights. Models the external
`sklearn.utils.class_weight.compute_class_weight('balanced', classes, y)`
call at utils.py:410 from its documented behavior:
`weight = n_samples / (n_classes * bincount(y))`, one weight per entry of
`classes`, in the order of `classes`. -/
def compute_class_weight_balanced (classes : List Nat) (y : List Nat) : List ℚ :=
  classes.map (fun c => (y.length : ℚ) / ((classes.length : ℚ) * (y.count c : ℚ)))

/-- The class-weight dictionary built by `prepare_dataset` (utils.py:410,428):
`classes` is `sorted(trans_dict.keys())`, which is exactly `npUnique labels`,
and the result is `{i: weight for i, weight in enumerate(class_weights)}`. -/
def class_weights_dict (train_labels : List Nat) : List (Nat × ℚ) :=
  (compute_class_weight_balanced (npUnique train_labels) train_labels).enum

/-- C7: every class weight equals `total_samples / (num_classes * count c)`
where `c` runs over the ascending unique training labels, every such count is
positive, the output is keyed by the contiguous indices `0..N-1` in ascending
order, and the spec's example `[0,0,0,1,1,1,1]` yields weights `7/6`, `7/8`. -/
theorem spec_c7_class_weights (labels : List Nat) :
    (class_weights_dict labels).map Prod.fst =
      List.range (npUnique labels).length ∧
    class_weights_dict labels = (npUnique labels).enum.map
      (fun p => (p.1, (labels.length : ℚ) /
        (((npUnique labels).length : ℚ) * (labels.count p.2 : ℚ)))) ∧
    (∀ c ∈ npUnique labels, 0 < labels.count c) ∧
    class_weights_dict [0, 0, 0, 1, 1, 1, 1] = [(0, 7/6), (1, 7/8)] := by
  refine ⟨?_, ?_, ?_, ?_⟩
  · rw [class_weights_dict, List.enum_map_fst, compute_class_weight_balanced,
      List.length_map]
  · rw [class_weights_dict, compute_class_weight_balanced, List.enum_map]
    simp [Prod.map]
  · intro c hc
    exact List.count_pos_iff.mpr (mem_npUnique.mp hc)
  · have hu : npUnique [0, 0, 0, 1, 1, 1, 1] = [0, 1] := by decide
    rw [class_weights_dict, compute_class_weight_balanced, hu]
    have hc0 : ([0, 0, 0, 1, 1, 1, 1] : List Nat).count 0 = 3 := by decide
    have hc1 : ([0, 0, 0, 1, 1, 1, 1] : List Nat).count 1 = 4 := by decide
    simp [List.enum, hc0, hc1]
    norm_num

/-! ### Normalisation (utils.py 126-137) -/

/-- Maximum of a list of rationals: models `np.max` on a 1-d array (numpy
raises on an empty array; the claims only use non-empty samples, for which
the `0` base value is never consulted). -/
def npMaxQ : List ℚ → ℚ
  | [] => 0
  | x :: xs => xs.foldl max x

/-- `normalise_minmax` (utils.py:126-137): divide the sample by its maximum
when the maximum is positive; otherwise print `Sample is empty` and fall off
the end of the function (returning `None`, modelled as `none`).  No division
is performed in the `none` case. -/
def normalise_minmax (sample : List ℚ) : Option (List ℚ) :=
  if 0 < npMaxQ sample then some (sample.map (· / npMaxQ sample)) else none

theorem foldl_max_map_comm (f : ℚ → ℚ)
    (hf : ∀ a b, f (max a b) = max (f a) (f b)) (xs : List ℚ) :
    ∀ a, (xs.map f).foldl max (f a) = f (xs.foldl max a) := by
  induction xs with
  | nil => intro a; rfl
  | cons y ys ih =>
    intro a
    simp only [List.map_cons, List.foldl_cons, ← hf a y]
    exact ih (max a y)

theorem npMaxQ_map_comm (f : ℚ → ℚ)
    (hf : ∀ a b, f (max a b) = max (f a) (f b)) (l : List ℚ) (h : l ≠ []) :
    npMaxQ (l.map f) = f (npMaxQ l) := by
  cases l with
  | nil => exact absurd rfl h
  | cons x xs => exact foldl_max_map_comm f hf xs x

theorem max_div_of_pos (m : ℚ) (hm : 0 < m) (a b : ℚ) :
    max a b / m = max (a / m) (b / m) := by
  rcases max_cases a b with ⟨h1, h2⟩ | ⟨h1, h2⟩ <;> rw [h1]
  · exact (max_eq_left ((div_le_div_iff_of_pos_right hm).mpr h2)).symm
  · exact (max_eq_right ((div_le_div_iff_of_pos_right hm).mpr h2.le)).symm

/-- C8: for a non-empty sample whose maximum is strictly positive, min-max
normalisation returns the sample divided by its maximum and the maximum of
the returned sample is exactly `1`; for a sample whose maximum is `≤ 0` it
signals the empty-sample condition (`none`, the printed message plus `None`
return) and performs no division. -/
theorem spec_c8_minmax_normalisation (sample : List ℚ) (h : sample ≠ []) :
    (0 < npMaxQ sample →
      normalise_minmax sample = some (sample.map (· / npMaxQ sample)) ∧
      npMaxQ (sample.map (· / npMaxQ sample)) = 1) ∧
    (npMaxQ sample ≤ 0 → normalise_minmax sample = none) := by
  constructor
  · intro hpos
    refine ⟨by rw [normalise_minmax, if_pos hpos], ?_⟩
    rw [npMaxQ_map_comm (· / npMaxQ sample)
      (fun a b => max_div_of_pos (npMaxQ sample) hpos a b) sample h]
    exact div_self (ne_of_gt hpos)
  · intro hle
    rw [normalise_minmax, if_neg (not_lt.mpr hle)]

/-- Witness for C8 at the samples `[0, 2]` (positive maximum) and `[0, 0]`
(all-zero). -/
theorem spec_c8_minmax_normalisation_witness :
    normalise_minmax [0, 2] = some [0, 1] ∧ normalise_minmax [0, 0] = none := by
  have hmax : npMaxQ [0, 2] = 2 := by
    simp [npMaxQ]
  have h1 := (spec_c8_minmax_normalisation [0, 2] (by simp)).1
    (by rw [hmax]; norm_num)
  have h2 := (spec_c8_minmax_normalisation [0, 0] (by simp)).2
    (by simp [npMaxQ])
  refine ⟨?_, h2⟩
  rw [h1.1, hmax]
  norm_num

/-! ### Baseline correction (utils.py 163-186) -/

/-- All entries of the two-column input array `y` (wavelength, intensity) in
row-major order: the guard `np.max(y) < 0` at utils.py:172 runs before the
wavelength column is stripped at utils.py:174, so it ranges over both
columns. -/
def allEntries : List (ℚ × ℚ) → List ℚ
  | [] => []
  | p :: ps => p.1 :: p.2 :: allEntries ps

/-- Intensity column `y[:,1]` of the two-column input. -/
def intensities (y : List (ℚ × ℚ)) : List ℚ := y.map Prod.snd

/-- Whether `baseline_als_optimized` emits its warning (utils.py:172-173):
`if np.max(y) < 0: warnings.warn('LIBS shot is empty or invalid, no positive
values')`. -/
def baseline_als_warns (y : List (ℚ × ℚ)) : Bool :=
  decide (npMaxQ (allEntries y) < 0)

/-- C3 (code bug): for the input `[(200, 0)]` — one point with a typical
positive wavelength and an all-zero intensity signal — the intensity signal
contains no positive values, yet `baseline_als_optimized` emits no warning:
its guard takes `np.max` over both columns of the not-yet-stripped input and
compares with `< 0`, so the positive wavelengths (and even an all-zero input)
suppress the warning the claim and the warning's own message promise. -/
theorem spec_c3_warning_guard_misses_empty_signal :
    (∀ v ∈ intensities [((200 : ℚ), 0)], ¬ 0 < v) ∧
    baseline_als_warns [((200 : ℚ), 0)] = false := by
  constructor
  · intro v hv
    simp [intensities] at hv
    rw [hv]
    norm_num
  · rw [baseline_als_warns, decide_eq_false_iff_not]
    simp [allEntries, npMaxQ]

/-- One reweighting update of the baseline corrector (utils.py:184):
`w = p * (y > z) + (1-p) * (y < z)`, elementwise over the clipped intensity
signal `y` and the fitted baseline `z` returned by the sparse solve; the
numpy comparison results are 0/1 valued. -/
def baseline_als_reweight (p : ℚ) (y z : List ℚ) : List ℚ :=
  List.zipWith
    (fun yi zi => p * (if zi < yi then 1 else 0) + (1 - p) * (if yi < zi then 1 else 0))
    y z

/-- C10: after a reweighting update, the weight of each point is exactly `p`
when the point lies strictly above the fitted baseline, `1 - p` when strictly
below, and `0` when equal; hence every updated weight lies in
`{0, p, 1 - p}`. -/
theorem spec_c10_reweight_values (p : ℚ) (y z : List ℚ) :
    baseline_als_reweight p y z =
      List.zipWith (fun yi zi => if zi < yi then p else if yi < zi then 1 - p else 0) y z ∧
    ∀ w ∈ baseline_als_reweight p y z, w = 0 ∨ w = p ∨ w = 1 - p := by
  have hpt : ∀ yi zi : ℚ,
      p * (if zi < yi then (1 : ℚ) else 0) + (1 - p) * (if yi < zi then 1 else 0) =
        if zi < yi then p else if yi < zi then 1 - p else 0 := by
    intro yi zi
    rcases lt_trichotomy yi zi with hlt | heq | hgt
    · simp [asymm hlt, hlt]
    · simp [heq]
    · simp [hgt, asymm hgt]
  constructor
  · rw [baseline_als_reweight]
    induction y generalizing z with
    | nil => simp
    | cons yi ys ih =>
      cases z with
      | nil => simp
      | cons zi zs => simp only [List.zipWith_cons_cons, ih, hpt yi zi]
  · rw [baseline_als_reweight]
    induction y generalizing z with
    | nil => intro w hw; simp at hw
    | cons yi ys ih =>
      cases z with
      | nil => intro w hw; simp at hw
      | cons zi zs =>
        intro w hw
        simp only [List.zipWith_cons_cons, List.mem_cons] at hw
        rcases hw with hw | hw
        · rw [hw, hpt yi zi]
          rcases lt_trichotomy yi zi with hlt | heq | hgt
          · simp [asymm hlt, hlt]
          · simp [heq]
          · simp [hgt, asymm hgt]
        · exact ih zs w hw

/-! ### Batch generator, single-pass mode (utils.py 314-355,
shuffle_and_repeat = False).

A batch is modelled as the list of files consumed for it; the sample matrix
of a batch has one row per consumed file (`samples[:j]` truncation included),
so batch row counts are exactly the lengths of these lists.  The recursion is
fuel-indexed to stay structural; `fuel ≥ rem.length` holds at every call
site, and each step consumes at least one file, so the fuel is never
exhausted.  The source generator diverges when `batch_size = 0` (the inner
loop body never runs); the embedding is only used with `0 < batch_size`,
which all claims assume. -/

/-- One `while run` iteration chain of `__data_generator` in single-pass
mode: a full batch of `b` files is yielded while at least `b` files remain
(the loop then continues, even when exactly `b` remained); otherwise the
remaining files form the final, short batch (`samples[:j]`) and the loop
stops (`run = False`). -/
def spGo {α : Type} : Nat → Nat → List α → List (List α)
  | 0, _, rem => [rem]
  | fuel + 1, b, rem =>
    if 0 < b ∧ b ≤ rem.length then rem.take b :: spGo fuel b (rem.drop b)
    else [rem]

/-- The full batch sequence of `__data_generator` with
`shuffle_and_repeat = False` on the file list `files`. -/
def singlePassBatches {α : Type} (files : List α) (b : Nat) : List (List α) :=
  spGo files.length b files

theorem spGo_spec {α : Type} (b : Nat) (hb : 0 < b) :
    ∀ fuel (rem : List α), rem.length ≤ fuel →
      (spGo fuel b rem).map List.length =
        List.replicate (rem.length / b) b ++ [rem.length % b] ∧
      (spGo fuel b rem).flatten = rem := by
  intro fuel
  induction fuel with
  | zero =>
    intro rem hrem
    have : rem = [] := List.eq_nil_of_length_eq_zero (Nat.le_zero.mp hrem)
    subst this
    simp [spGo, List.replicate]
  | succ fuel ih =>
    intro rem hrem
    by_cases hble : b ≤ rem.length
    · have hcond : 0 < b ∧ b ≤ rem.length := ⟨hb, hble⟩
      have hdrop : (rem.drop b).length ≤ fuel := by
        rw [List.length_drop]
        omega
      obtain ⟨ih1, ih2⟩ := ih (rem.drop b) hdrop
      have hlen : rem.length = (rem.length - b) + b := by omega
      constructor
      · rw [spGo, if_pos hcond, List.map_cons, ih1, List.length_take,
          List.length_drop, min_eq_left hble]
        have h1 : rem.length / b = (rem.length - b) / b + 1 := by
          conv_lhs => rw [hlen]
          rw [Nat.add_div_right _ hb]
        have h2 : rem.length % b = (rem.length - b) % b := by
          conv_lhs => rw [hlen]
          rw [Nat.add_mod_right]
        rw [h1, h2, List.replicate_succ]
        rfl
      · rw [spGo, if_pos hcond, List.flatten_cons, ih2,
          List.take_append_drop]
    · have hlt : rem.length < b := Nat.lt_of_not_le hble
      have hcond : ¬ (0 < b ∧ b ≤ rem.length) := fun h => hble h.2
      rw [spGo, if_neg hcond]
      rw [Nat.div_eq_of_lt hlt, Nat.mod_eq_of_lt hlt]
      simp

/-- C1: in single-pass mode on a non-empty file list of length `n` with
batch size `b`, when `n` is not an exact multiple of `b`, the generator
yields `n / b` full batches of `b` rows followed by one final short batch of
`n mod b` rows and then terminates (the batch sequence is exactly this finite
list), and the concatenation of all batches is the file list itself in its
given order. -/
theorem spec_c1_single_pass_short_final_batch {α : Type} (files : List α)
    (b : Nat) (hb : 0 < b) (hne : files ≠ []) (hmod : files.length % b ≠ 0) :
    (singlePassBatches files b).map List.length =
      List.replicate (files.length / b) b ++ [files.length % b] ∧
    (singlePassBatches files b).flatten = files :=
  spGo_spec b hb files.length files le_rfl

/-- Witness for C1 at the spec's own example: 10 files, batch size 4, batch
sizes `[4, 4, 2]`. -/
theorem spec_c1_single_pass_short_final_batch_witness :
    (singlePassBatches (List.range 10) 4).map List.length = [4, 4, 2] := by
  have h := (spec_c1_single_pass_short_final_batch (List.range 10) 4
    (by decide) (by decide) (by decide)).1
  simpa using h

/-- C9: in single-pass mode on a non-empty file list whose length `n` is an
exact positive multiple of the batch size `b`, the generator yields `n / b`
full batches of `b` rows and then one additional final batch of `0` rows
before terminating, and the concatenation of all batches is the file list
itself. -/
theorem spec_c9_single_pass_trailing_empty_batch {α : Type} (files : List α)
    (b : Nat) (hb : 0 < b) (hne : files ≠ []) (hmod : files.length % b = 0) :
    (singlePassBatches files b).map List.length =
      List.replicate (files.length / b) b ++ [0] ∧
    (singlePassBatches files b).flatten = files := by
  have h := spGo_spec b hb files.length files le_rfl
  rw [hmod] at h
  exact h

/-- Witness for C9: 8 files, batch size 4, batch sizes `[4, 4, 0]`. -/
theorem spec_c9_single_pass_trailing_empty_batch_witness :
    (singlePassBatches (List.range 8) 4).map List.length = [4, 4, 0] := by
  have h := (spec_c9_single_pass_trailing_empty_batch (List.range 8) 4
    (by decide) (by decide) (by decide)).1
  simpa using h

/-! ### Batch generator, repeating mode (utils.py 314-355,
shuffle_and_repeat = True).

`sklearn.utils.shuffle` is external and randomized; it is modelled as an
oracle `perms : Nat → List α` supplying the result of the k-th shuffle call,
constrained (in the theorems) to be a permutation of the file list, which is
all the source guarantees.  `perms 0` is the shuffle performed before the
loop (utils.py:330), `perms (k+1)` the reshuffle performed when the list is
exhausted for the k-th time (utils.py:339-341).  Rows are emitted one file at
a time; batch `m` consists of rows `m*b .. m*b+b-1` (in this mode the inner
loop never truncates, so every batch has exactly `b` rows). -/

/-- Cursor state of the repeating generator: position `i` in the current
(shuffled) file list, and how many shuffle calls happened so far. -/
structure RepState (α : Type) where
  idx : Nat
  pass : Nat
  cur : List α

/-- Emission of one row (one iteration of the inner `for j` loop with
`shuffle_and_repeat = True`): when the cursor ran off the end, reset it and
reshuffle (utils.py:338-341), then read `files[i]` and advance the cursor
(utils.py:348-354). -/
def repStep {α : Type} [Inhabited α] (perms : Nat → List α) (s : RepState α) :
    α × RepState α :=
  if s.cur.length ≤ s.idx then
    ((perms (s.pass + 1)).getD 0 default, ⟨1, s.pass + 1, perms (s.pass + 1)⟩)
  else
    (s.cur.getD s.idx default, ⟨s.idx + 1, s.pass, s.cur⟩)

/-- Row `n` of the repeating generator together with the state after it,
starting from the initial shuffle `perms 0` (utils.py:330). -/
def repRun {α : Type} [Inhabited α] (perms : Nat → List α) :
    Nat → α × RepState α
  | 0 => repStep perms ⟨0, 0, perms 0⟩
  | n + 1 => repStep perms (repRun perms n).2

/-- Row `n` (0-based) of the endless row stream of the repeating generator. -/
def repRow {α : Type} [Inhabited α] (perms : Nat → List α) (n : Nat) : α :=
  (repRun perms n).1

/-- Batch `m` of the repeating generator with batch size `b`. -/
def repBatch {α : Type} [Inhabited α] (perms : Nat → List α) (b m : Nat) :
    List α :=
  (List.range b).map (fun j => repRow perms (m * b + j))

theorem repRun_eq {α : Type} [Inhabited α] (perms : Nat → List α) (L : Nat)
    (hL : ∀ k, (perms k).length = L) (hpos : 0 < L) (n : Nat) :
    repRun perms n =
      ((perms (n / L)).getD (n % L) default,
        ⟨n % L + 1, n / L, perms (n / L)⟩) := by
  induction n with
  | zero =>
    rw [repRun]
    simp only [repStep, hL]
    rw [if_neg (Nat.not_le.mpr hpos)]
    simp
  | succ n ih =>
    rw [repRun, ih]
    simp only [repStep, hL]
    have hmodL : n % L < L := Nat.mod_lt n hpos
    have hdm := Nat.div_add_mod n L
    by_cases hc : L ≤ n % L + 1
    · rw [if_pos hc]
      have hmod : n % L = L - 1 := by omega
      have hn1 : n + 1 = L * (n / L + 1) := by
        conv_lhs => rw [← hdm]
        rw [hmod, Nat.mul_add, Nat.mul_one, Nat.add_assoc,
          Nat.sub_add_cancel hpos]
      have hA : (n + 1) / L = n / L + 1 := by
        rw [hn1, Nat.mul_div_cancel_left _ hpos]
      have hB : (n + 1) % L = 0 := by
        rw [hn1, Nat.mul_mod_right]
      rw [hA, hB]
    · rw [if_neg hc]
      have hlt2 : n % L + 1 < L := Nat.lt_of_not_le hc
      have hn2 : n + 1 = (n % L + 1) + L * (n / L) := by
        conv_lhs => rw [← hdm]
        ring
      have hC : (n + 1) / L = n / L := by
        rw [hn2, Nat.add_mul_div_left _ _ hpos, Nat.div_eq_of_lt hlt2,
          Nat.zero_add]
      have hD : (n + 1) % L = n % L + 1 := by
        rw [hn2, Nat.add_mul_mod_self_left, Nat.mod_eq_of_lt hlt2]
      rw [hC, hD]

theorem repRow_eq {α : Type} [Inhabited α] (perms : Nat → List α) (L : Nat)
    (hL : ∀ k, (perms k).length = L) (hpos : 0 < L) (n : Nat) :
    repRow perms n = (perms (n / L)).getD (n % L) default := by
  rw [repRow, repRun_eq perms L hL hpos n]

/-- Rows `k*L .. k*L+L-1` — the k-th full pass over the list — are exactly
the k-th shuffle result. -/
theorem repRow_window {α : Type} [Inhabited α] (perms : Nat → List α)
    (L : Nat) (hL : ∀ k, (perms k).length = L) (hpos : 0 < L) (k : Nat) :
    (List.range L).map (fun j => repRow perms (k * L + j)) = perms k := by
  apply List.ext_getElem
  · simp [hL]
  · intro i h1 h2
    simp only [List.getElem_map, List.getElem_range]
    have hi : i < L := by simpa using h1
    rw [repRow_eq perms L hL hpos]
    have hsplit : k * L + i = i + L * k := by ring
    have hdiv : (k * L + i) / L = k := by
      rw [hsplit, Nat.add_mul_div_left _ _ hpos, Nat.div_eq_of_lt hi,
        Nat.zero_add]
    have hmod : (k * L + i) % L = i := by
      rw [hsplit, Nat.add_mul_mod_self_left, Nat.mod_eq_of_lt hi]
    rw [hdiv, hmod, List.getD_eq_getElem?_getD,
      List.getElem?_eq_getElem (by rw [hL]; exact hi), Option.getD_some]

/-- C2: in repeating mode (with the shuffle oracle constrained to produce
permutations of the file list, which is what `sklearn.utils.shuffle` does)
the generator never terminates — every batch has exactly `b` rows; between
two consecutive reshuffles it consumes every file exactly once (each full
pass of rows is a permutation of the file list); and for 3 distinct files
and batch size 5, the first 3 rows of the first batch contain each file
exactly once, so every file appears before any file repeats. -/
theorem spec_c2_repeating_mode (files : List Nat) (perms : Nat → List Nat)
    (hne : files ≠ []) (hperm : ∀ k, (perms k).Perm files) :
    (∀ b m, (repBatch perms b m).length = b) ∧
    (∀ k, ((List.range files.length).map
        (fun j => repRow perms (k * files.length + j))).Perm files) ∧
    (files.Nodup → files.length = 3 →
      ((repBatch perms 5 0).take 3).Nodup ∧
      ∀ x ∈ files, x ∈ (repBatch perms 5 0).take 3) := by
  have hL : ∀ k, (perms k).length = files.length := fun k => (hperm k).length_eq
  have hpos : 0 < files.length := List.length_pos.mpr hne
  have hwin : ∀ k, (List.range files.length).map
      (fun j => repRow perms (k * files.length + j)) = perms k :=
    fun k => repRow_window perms files.length hL hpos k
  refine ⟨fun b m => by simp [repBatch], fun k => (hwin k) ▸ hperm k,
    fun hnd h3 => ?_⟩
  have htake : (repBatch perms 5 0).take 3 = perms 0 := by
    have h0 := hwin 0
    rw [h3] at h0
    simp only [Nat.zero_mul, Nat.zero_add] at h0
    rw [repBatch]
    simp only [Nat.zero_mul, Nat.zero_add]
    rw [← List.map_take, List.take_range]
    simpa using h0
  rw [htake]
  exact ⟨(hperm 0).nodup_iff.mpr hnd, fun x hx => (hperm 0).mem_iff.mpr hx⟩

/-- Witness for C2: files `[10, 20, 30]`, every shuffle returning the
permutation `[20, 30, 10]`; pass 1 consumes each file exactly once. -/
theorem spec_c2_repeating_mode_witness :
    ((List.range (([10, 20, 30] : List Nat)).length).map
      (fun j => repRow (fun _ => [20, 30, 10])
        (1 * ([10, 20, 30] : List Nat).length + j))).Perm [10, 20, 30] ∧
    (10 : Nat) ∈ (repBatch (fun _ => ([20, 30, 10] : List Nat)) 5 0).take 3 := by
  have h := spec_c2_repeating_mode [10, 20, 30] (fun _ => [20, 30, 10])
    (by decide)
    (fun k => by show ([20, 30, 10] : List Nat).Perm [10, 20, 30]; decide)
  exact ⟨h.2.1 1, (h.2.2 (by decide) (by decide)).2 10 (by decide)⟩

/-! ### Grid reconstructor (utils.py 218-263).

A per-shot file name `{mineral-id}_{...}_{...}_{measure-point}_{shot}.npz` is
modelled by the three fields the function reads: the mineral-ID token, the
measure-point token and the 1-based shot index parsed from the last token. -/

/-- The fields of one test-set file name consumed by
`get_64shot_transition_matrix`. -/
structure ShotFile where
  mId : Nat
  mp : Nat
  shot : Nat
  deriving DecidableEq

/-- Look-ahead of the inner `for j` loop (utils.py:238-244): collect the
leading files whose (mineral ID, measure point) pair equals `k`, and return
them together with the files left over after the first mismatch. -/
def takeRun (k : Nat × Nat) : List ShotFile → List ShotFile × List ShotFile
  | [] => ([], [])
  | f :: fs =>
    if (f.mId, f.mp) = k then
      ((f :: (takeRun k fs).1), (takeRun k fs).2)
    else ([], f :: fs)

theorem takeRun_append (k : Nat × Nat) (l : List ShotFile) :
    (takeRun k l).1 ++ (takeRun k l).2 = l := by
  induction l with
  | nil => rfl
  | cons f fs ih =>
    by_cases h : (f.mId, f.mp) = k
    · simp [takeRun, h, ih]
    · simp [takeRun, h]

theorem takeRun_snd_length (k : Nat × Nat) (l : List ShotFile) :
    (takeRun k l).2.length ≤ l.length := by
  have h := congrArg List.length (takeRun_append k l)
  rw [List.length_append] at h
  omega

/-- Outer `while` loop of `get_64shot_transition_matrix`
(utils.py:231-245): split the file list into maximal consecutive runs with
equal (mineral ID, measure point) pair.  Fuel-indexed to stay structural;
`fuel ≥ l.length` holds at every call site and each step consumes at least
one file (the run always contains the file at the cursor). -/
def runsByFuel : Nat → List ShotFile → List (List ShotFile)
  | 0, _ => []
  | fuel + 1, [] => []
  | fuel + 1, f :: fs =>
    (f :: (takeRun (f.mId, f.mp) fs).1) ::
      runsByFuel fuel (takeRun (f.mId, f.mp) fs).2

/-- The `measure_point_split` list built by the first loop of
`get_64shot_transition_matrix`. -/
def runsBy (l : List ShotFile) : List (List ShotFile) := runsByFuel l.length l

theorem runsByFuel_flatten :
    ∀ fuel (l : List ShotFile), l.length ≤ fuel →
      (runsByFuel fuel l).flatten = l := by
  intro fuel
  induction fuel with
  | zero =>
    intro l hl
    have : l = [] := List.eq_nil_of_length_eq_zero (Nat.le_zero.mp hl)
    subst this
    rfl
  | succ fuel ih =>
    intro l hl
    cases l with
    | nil => rfl
    | cons f fs =>
      have hrest : (takeRun (f.mId, f.mp) fs).2.length ≤ fuel := by
        have := takeRun_snd_length (f.mId, f.mp) fs
        simp at hl
        omega
      rw [runsByFuel, List.flatten_cons, ih _ hrest, List.cons_append,
        takeRun_append]

theorem runsBy_flatten (l : List ShotFile) : (runsBy l).flatten = l :=
  runsByFuel_flatten l.length l le_rfl

/-- `get_64shot_transition_matrix` (utils.py:218-263): one row
`(measure-point-index, shot // 8, shot % 8)` per file, where the
measure-point index is the position of the file's run in
`measure_point_split` (the `j` counter of the second loop) and
`shot = shot_id - 1` is the 0-based shot index (utils.py:256-259). -/
def get_64shot_transition_matrix (files : List ShotFile) :
    List (Nat × Nat × Nat) :=
  ((runsBy files).enum.map
    (fun p => p.2.map (fun f => (p.1, (f.shot - 1) / 8, (f.shot - 1) % 8)))).flatten

theorem tm_enumFrom_snd (n : Nat) (L : List (List ShotFile)) :
    (((List.enumFrom n L).map
      (fun p => p.2.map (fun f => (p.1, (f.shot - 1) / 8, (f.shot - 1) % 8)))).flatten).map
        (fun r => r.2) =
      L.flatten.map (fun f => ((f.shot - 1) / 8, (f.shot - 1) % 8)) := by
  induction L generalizing n with
  | nil => rfl
  | cons g gs ih =>
    simp only [List.enumFrom_cons, List.map_cons, List.flatten_cons,
      List.map_append, List.map_map, ih]
    rfl

theorem tm_enumFrom_fst (n : Nat) (L : List (List ShotFile)) :
    (((List.enumFrom n L).map
      (fun p => p.2.map (fun f => (p.1, (f.shot - 1) / 8, (f.shot - 1) % 8)))).flatten).map
        (fun r => r.1) =
      ((List.enumFrom n L).map (fun p => List.replicate p.2.length p.1)).flatten := by
  induction L generalizing n with
  | nil => rfl
  | cons g gs ih =>
    simp only [List.enumFrom_cons, List.map_cons, List.flatten_cons,
      List.map_append, List.map_map, ih]
    congr 1
    exact List.map_const' g n

/-- C6: the transition matrix has exactly one row of 3 entries per input
file; reading the rows in order, the (row, column) coordinates are exactly
`((s-1) // 8, (s-1) % 8)` for the corresponding file's 1-based shot index
`s` in the input order; the measure-point entries are the run index of each
file's run of consecutive equal (mineral ID, measure point) pairs, runs
being numbered sequentially from 0; and on three consecutive files of one
measure point with shot IDs 1, 9, 64 the rows are
`[mp, 0, 0], [mp, 1, 0], [mp, 7, 7]` with `mp = 0` the run's assigned
sequential index. -/
theorem spec_c6_transition_matrix (files : List ShotFile) :
    (get_64shot_transition_matrix files).length = files.length ∧
    (get_64shot_transition_matrix files).map (fun r => r.2) =
      files.map (fun f => ((f.shot - 1) / 8, (f.shot - 1) % 8)) ∧
    (get_64shot_transition_matrix files).map (fun r => r.1) =
      ((runsBy files).enum.map (fun p => List.replicate p.2.length p.1)).flatten ∧
    get_64shot_transition_matrix
        [⟨7, 4, 1⟩, ⟨7, 4, 9⟩, ⟨7, 4, 64⟩] = [(0, 0, 0), (0, 1, 0), (0, 7, 7)] := by
  have henum : (runsBy files).enum = List.enumFrom 0 (runsBy files) := rfl
  have hsnd : (get_64shot_transition_matrix files).map (fun r => r.2) =
      files.map (fun f => ((f.shot - 1) / 8, (f.shot - 1) % 8)) := by
    rw [get_64shot_transition_matrix, henum, tm_enumFrom_snd, runsBy_flatten]
  refine ⟨?_, hsnd, ?_, ?_⟩
  · have h := congrArg List.length hsnd
    rw [List.length_map, List.length_map] at h
    exact h
  · rw [get_64shot_transition_matrix, henum, tm_enumFrom_fst]
  · decide

/-- Witness for C3's evaluation at the failing input: the single intensity
value `0` of the input `[(200, 0)]` is indeed not positive. -/
theorem spec_c3_warning_guard_misses_empty_signal_witness :
    ¬ (0 : ℚ) < 0 :=
  (spec_c3_warning_guard_misses_empty_signal).1 0 (by simp [intensities])

/-- Witness for C7 at the spec's example `[0,0,0,1,1,1,1]`: the weights are
`7/6` and `7/8`, and class `1` has a positive sample count. -/
theorem spec_c7_class_weights_witness :
    class_weights_dict [0, 0, 0, 1, 1, 1, 1] = [(0, 7/6), (1, 7/8)] ∧
    0 < ([0, 0, 0, 1, 1, 1, 1] : List Nat).count 1 :=
  ⟨(spec_c7_class_weights [0, 0, 0, 1, 1, 1, 1]).2.2.2,
    (spec_c7_class_weights [0, 0, 0, 1, 1, 1, 1]).2.2.1 1 (by decide)⟩

/-- Witness for C10 with `p = 1/10`, `y = [3, 1, 2]`, `z = [2, 2, 2]`: the
first weight is `1/10 = p`, which lies in `{0, p, 1-p}`. -/
theorem spec_c10_reweight_values_witness :
    (1/10 : ℚ) = 0 ∨ (1/10 : ℚ) = 1/10 ∨ (1/10 : ℚ) = 1 - 1/10 := by
  have hval : baseline_als_reweight (1/10) [3, 1, 2] [2, 2, 2] =
      [1/10, 1 - 1/10, 0] := by
    rw [baseline_als_reweight]
    norm_num [List.zipWith]
  have hmem : (1/10 : ℚ) ∈ baseline_als_reweight (1/10) [3, 1, 2] [2, 2, 2] := by
    rw [hval]
    exact List.mem_cons_self _ _
  exact (spec_c10_reweight_values (1/10) [3, 1, 2] [2, 2, 2]).2 (1/10) hmem
